import Mathlib

/-!
# Verification of the bird-taxonomy tree (`src/birds.rs`, `src/file.rs`)

Shallow embedding of the in-memory taxonomy tree and its operations.

Modelling conventions:
* A Rust `Node` (an `Rc`-allocated tagged union) becomes the inductive
  `Node` below, with a `Group`'s children owned inline.  An `Rc<Node>`
  reference into the tree (as stored in `BirdTree::direct_parents`, or as
  returned by `get_group_with_name`) is modelled as the *path* of child
  indices leading from the tree's root to that node: the operations of the
  repository only ever append children, so such paths stay valid and see
  later mutations, exactly as the shared `Rc`/`RefCell` references do.
* `Node::parent` is a `Weak` back-reference maintained by `Node::add`; for
  a node sitting at path `p` in a tree built by the repository's
  operations the parent is the node at `p.dropLast`, and the root (or any
  freshly created, not yet attached node) has an empty parent.
  `full_scientific_name`, the only consumer of parent links, is therefore
  embedded as a function of the root and the node's path.
* Rust strings are Lean `String`s.  `str::to_lowercase`, `str::trim` and
  `String::len` are embedded below for the ASCII fragment the repository
  manipulates (`rust_lowercase` lowers `A`–`Z`, `rust_trim` strips the
  blank/tab/CR/LF characters, `rust_len` counts UTF-8 bytes exactly as
  Rust's byte-length `len` does).
* Fallible Rust functions returning `Result<_, E>` become `Except E _`;
  `Option` stays `Option`.  `Node::children`, whose `Err(NodeTypeError)`
  case marks a programming error, is embedded as an `Option` with `none`
  standing for the `NodeTypeError` result.
-/

/-- UTF-8 byte width of one character, as Rust's `char::len_utf8`. -/
def rust_char_len (c : Char) : Nat :=
  if c.val ≤ 0x7F then 1
  else if c.val ≤ 0x7FF then 2
  else if c.val ≤ 0xFFFF then 3
  else 4

/-- Rust `String::len`: the UTF-8 byte length of the string. -/
def rust_len (s : String) : Nat :=
  s.data.foldl (fun n c => n + rust_char_len c) 0

/-- ASCII lowercasing of one character (models `char::to_lowercase` on the
ASCII range, where it agrees with Rust's full Unicode lowering). -/
def ascii_lower (c : Char) : Char :=
  if 'A' ≤ c ∧ c ≤ 'Z' then Char.ofNat (c.toNat + 32) else c

/-- Models Rust `str::to_lowercase` (on the ASCII fragment). -/
def rust_lowercase (s : String) : String :=
  ⟨s.data.map ascii_lower⟩

/-- The whitespace class stripped by `rust_trim`. -/
def rust_is_ws (c : Char) : Bool :=
  c = ' ' ∨ c = '\t' ∨ c = '\n' ∨ c = '\r'

/-- Models Rust `str::trim`: strips whitespace from both ends. -/
def rust_trim (s : String) : String :=
  ⟨((s.data.dropWhile rust_is_ws).reverse.dropWhile rust_is_ws).reverse⟩

/-- The `x.to_lowercase().trim()` normalisation idiom used by every name
comparison in `birds.rs`. -/
def rust_norm (s : String) : String :=
  rust_trim (rust_lowercase s)

/-- Rust `str::split(" ")`: fields between single-space separators, with
empty fields preserved (`" a".split(" ")` yields `["", "a"]`). -/
def split_spaces_aux (acc : List Char) : List Char → List (List Char)
  | [] => [acc.reverse]
  | c :: rest =>
      if c = ' ' then acc.reverse :: split_spaces_aux [] rest
      else split_spaces_aux (c :: acc) rest

/-- Rust `str::split(" ")` on a string, as a list of strings. -/
def split_spaces (s : String) : List String :=
  (split_spaces_aux [] s.data).map String.mk

/-- Model of `Node` from `birds.rs`: a taxonomical `Group` with an ordered child
list, or a leaf `Bird` with a common name and a scientific name.  Parent
links are represented positionally (see the module docstring). -/
inductive Node where
  | Group (name : String) (children : List Node)
  | Bird (name : String) (scientific_name : String)
deriving Repr

namespace Node

/-- Model of `Node::name`: the common name of a `Bird`, the name of a `Group`. -/
def name : Node → String
  | Group n _ => n
  | Bird n _ => n

/-- Model of `Node::scientific_name`: the epithet of a `Bird`; for a `Group` it
returns the default name, as the source notes. -/
def scientific_name : Node → String
  | Group n _ => n
  | Bird _ s => s

/-- Model of `Node::children`: the child list of a `Group`; `none` models the
`Err(NodeTypeError)` returned for a `Bird`. -/
def children : Node → Option (List Node)
  | Group _ cs => some cs
  | Bird _ _ => none

/-- Whether the node is the `Bird` variant. -/
def is_bird : Node → Bool
  | Group _ _ => false
  | Bird _ _ => true

end Node

/-- Replace the element at index `i`, leaving the list unchanged when the
index is out of range. -/
def modify_idx (f : α → α) : Nat → List α → List α
  | _, [] => []
  | 0, a :: as => f a :: as
  | n + 1, a :: as => a :: modify_idx f n as

/-- Pair each element of a list with its index, starting at `n`. -/
def idx_from (n : Nat) : List α → List (Nat × α)
  | [] => []
  | a :: as => (n, a) :: idx_from (n + 1) as

namespace Node

/-- Resolve a path of child indices from a node (the model of following an
`Rc` reference into the tree). -/
def get (n : Node) : List Nat → Option Node
  | [] => some n
  | i :: p =>
      match n with
      | Group _ cs =>
          match cs[i]? with
          | some c => c.get p
          | none => none
      | Bird _ _ => none

/-- Apply `f` to the node at the given path, leaving the tree unchanged
when the path does not resolve. -/
def modify_at (n : Node) (p : List Nat) (f : Node → Node) : Node :=
  match p with
  | [] => f n
  | i :: p2 =>
      match n with
      | Group nm cs => Group nm (modify_idx (fun c => c.modify_at p2 f) i cs)
      | Bird nm s => Bird nm s

/-- Model of `Node::add`: append a child to a group's child list (and, in the
source, set the child's parent back-reference — implicit in the path
model).  On a `Bird` the source returns `Err(NodeTypeError)`; every call
site in the repository unwraps, and only ever calls it on groups, so the
embedding leaves a `Bird` unchanged. -/
def add : Node → Node → Node
  | Group nm cs, c => Group nm (cs ++ [c])
  | Bird nm s, _ => Bird nm s

/-- The recurrence of `Node::full_scientific_name`, evaluated top-down
along the node's path: a node's full name is
`format!("{} {}", parent_full.unwrap_or("").trim(), self.scientific_name)`,
and a parentless node's is `None` (the `?` on `Weak::upgrade`).  `cur` is
the node reached so far and `cur_full` its own full name; each step moves
to the `i`-th child, whose full name is built from `cur_full` exactly as
the source's `format!` line builds it from the parent's. -/
def full_scientific_name_from (cur : Node) (cur_full : Option String) :
    List Nat → Option String
  | [] => cur_full
  | i :: rest =>
      match (cur.children.getD [])[i]? with
      | none => none
      | some child =>
          full_scientific_name_from child
            (some (rust_trim (cur_full.getD "") ++ " " ++ child.scientific_name)) rest

/-- Model of `Node::full_scientific_name` of the node at path `p` of the tree
rooted at `root` (the parent of the node at `i :: p` is the node at
`(i :: p).dropLast`; the root, at path `[]`, has no parent and yields
`none`). -/
def full_scientific_name (root : Node) (p : List Nat) : Option String :=
  full_scientific_name_from root none p

end Node

/-- Model of the `GroupError` enum from `birds.rs`. -/
inductive GroupError where
  | NoGroupExistsErr
  | InputOutsideOfBoundsError
deriving Repr, DecidableEq

/-- First direct child (with its index) that is a `Group` whose normalised
name equals the normalised query: the first loop of
`BirdTree::get_group_with_name`. -/
def direct_match (q : String) : Nat → List Node → Option (List Nat × Node)
  | _, [] => none
  | i, c :: rest =>
      match c with
      | Node.Group nm _ =>
          if rust_norm nm = rust_norm q then some ([i], c)
          else direct_match q (i + 1) rest
      | Node.Bird _ _ => direct_match q (i + 1) rest

mutual

/-- Model of `BirdTree::get_group_with_name`: starting from `group` (never matching
`group` itself), first scan the direct children for a group with the
normalised name, then recurse into each child group in order.  The result
is the found node together with its path relative to `group` (the model
of the returned `Rc<Node>`). -/
def get_group_with_name (group : Node) (group_name : String) :
    Option (List Nat × Node) :=
  match group with
  | Node.Bird _ _ => none
  | Node.Group _ children =>
      match direct_match group_name 0 children with
      | some r => some r
      | none => deep_match group_name 0 children

/-- The second loop of `get_group_with_name`: recurse into each child
group in order, returning the first successful recursive lookup. -/
def deep_match (q : String) : Nat → List Node → Option (List Nat × Node)
  | _, [] => none
  | i, c :: rest =>
      match c with
      | Node.Group nm cs =>
          match get_group_with_name (Node.Group nm cs) q with
          | some (p, n) => some (i :: p, n)
          | none => deep_match q (i + 1) rest
      | Node.Bird _ _ => deep_match q (i + 1) rest

end

mutual

/-- Model of `BirdTree::birds_in_group`: collect the `Bird` leaves of a group's
subtree; a `Group` child is recursed into, a `Bird` child is appended.
(The source threads an accumulator; the embedding returns the collected
list, in the same order.)  The source would panic on a `Bird` argument
(`children().unwrap()`); that case is never reached and is modelled as
`[]`. -/
def birds_in_group : Node → List Node
  | Node.Bird _ _ => []
  | Node.Group _ children => birds_in_children children

/-- The loop body of `birds_in_group` over a child list. -/
def birds_in_children : List Node → List Node
  | [] => []
  | c :: rest =>
      match c with
      | Node.Bird nm s => Node.Bird nm s :: birds_in_children rest
      | Node.Group nm cs =>
          birds_in_group (Node.Group nm cs) ++ birds_in_children rest

end

/-- Model of `BirdData` from `file.rs`: one persisted record (`parentNodes`,
`name`, `commonName` on the wire). -/
structure BirdData where
  parent_nodes : List String
  name : String
  common_name : String
deriving Repr, DecidableEq

/-- Model of `BirdTree` from `birds.rs`: the root node plus the `direct_parents`
index; each index entry (an `Rc<Node>` in the source) is modelled by its
path from the root. -/
structure BirdTree where
  root : Node
  direct_parents : List (List Nat)
deriving Repr

namespace BirdTree

/-- Model of `BirdTree::new`: fails (returns `None`) when the root or any of the
supplied direct parents is a `Bird`.  (In the path model a direct parent
must also resolve in the root's subtree; every caller in the repository
passes nodes of that subtree.) -/
def new (root : Node) (direct_parents : List (List Nat)) : Option BirdTree :=
  if root.is_bird then none
  else if direct_parents.all (fun p =>
      match root.get p with
      | some n => !n.is_bird
      | none => false) then
    some ⟨root, direct_parents⟩
  else none

/-- Model of `BirdTree::search_by_scientific_name`: walk the `direct_parents` index
in order and, within each entry's children (in order), return the first
child whose normalised scientific name equals the normalised query.  The
source unwraps `children()`; an entry that is not a group contributes
nothing in the model (under the tree invariant proved below the case is
unreachable). -/
def search_by_scientific_name (t : BirdTree) (name : String) : Option Node :=
  t.direct_parents.findSome? fun p =>
    (((t.root.get p).bind Node.children).getD []).find? fun child =>
      rust_norm child.scientific_name == rust_norm name

/-- Model of `BirdTree::search_by_name`: as `search_by_scientific_name`, matching
on the common name. -/
def search_by_name (t : BirdTree) (name : String) : Option Node :=
  t.direct_parents.findSome? fun p =>
    (((t.root.get p).bind Node.children).getD []).find? fun child =>
      rust_norm child.name == rust_norm name

/-- Model of `BirdTree::birds_in_group_from_name`: locate the group via
`get_group_with_name` starting at the root, else `NoGroupExistsErr`; then
collect its subtree's birds. -/
def birds_in_group_from_name (t : BirdTree) (group_name : String) :
    Except GroupError (List Node) :=
  match get_group_with_name t.root group_name with
  | none => .error .NoGroupExistsErr
  | some (_, group) => .ok (birds_in_group group)

/-- Model of `BirdTree::add_group`: validate the new name's byte length (Rust
`str::len`), locate the parent, then append a fresh empty group to it. -/
def add_group (t : BirdTree) (parent new_group_name : String) :
    Except GroupError BirdTree :=
  if rust_len new_group_name < 1 ∨ rust_len new_group_name > 50 then
    .error .InputOutsideOfBoundsError
  else
    match get_group_with_name t.root parent with
    | none => .error .NoGroupExistsErr
    | some (p, _) =>
        .ok { t with
          root := t.root.modify_at p (fun g => g.add (Node.Group new_group_name [])) }

/-- Model of `BirdTree::add_bird`: validate both names' byte lengths, locate the
parent, then append a fresh bird to it.  `direct_parents` is untouched. -/
def add_bird (t : BirdTree) (parent name scientific_name : String) :
    Except GroupError BirdTree :=
  if rust_len name < 1 ∨ rust_len name > 50
      ∨ rust_len scientific_name < 1 ∨ rust_len scientific_name > 50 then
    .error .InputOutsideOfBoundsError
  else
    match get_group_with_name t.root parent with
    | none => .error .NoGroupExistsErr
    | some (p, _) =>
        .ok { t with
          root := t.root.modify_at p (fun g => g.add (Node.Bird name scientific_name)) }

end BirdTree

/-- The descent loop of `BirdTree::insert_data` over
`data.parent_nodes[1..]`: at each name, descend into the group found by
`get_group_with_name` in the current subtree, or create, attach and enter
a fresh group with that exact name.  Returns the transformed subtree
together with the path (relative to `current`) of the taxon reached.
(The source mutates in place through shared references; descending into a
found child and plugging the transformed subtree back at its path is the
same computation.) -/
def insert_groups (current : Node) : List String → Node × List Nat
  | [] => (current, [])
  | gname :: rest =>
      match get_group_with_name current gname with
      | some (p, g) =>
          let r := insert_groups g rest
          (current.modify_at p (fun _ => r.1), p ++ r.2)
      | none =>
          let idx := (current.children.getD []).length
          let r := insert_groups (Node.Group gname []) rest
          (current.add r.1, idx :: r.2)

/-- Model of `BirdTree::insert_data`: the slice `data.parent_nodes[1..]`
panics (index out of bounds) when `parent_nodes` is empty — modelled as
`none`.  Otherwise it walks/extends the taxon chain of the names after
the first (which is skipped), pushes the reached group onto
`direct_parents`, and appends `Bird(common_name, name)` to it. -/
def BirdTree.insert_data (t : BirdTree) (data : BirdData) : Option BirdTree :=
  match data.parent_nodes with
  | [] => none
  | _ :: names =>
      let r := insert_groups t.root names
      some { root := r.1.modify_at r.2 (fun g => g.add (Node.Bird data.common_name data.name)),
             direct_parents := t.direct_parents ++ [r.2] }

/-- Model of `bird_data_from_bird` from `file.rs`: split the bird's full scientific
name on spaces, lowercase each piece, and package the record.  The bird
sits at path `p`; `getD ""` models the source's `unwrap()` (at every call
site the bird has a parent, so the full name is `some`). -/
def bird_data_from_bird (root : Node) (p : List Nat) (bird : Node) : BirdData :=
  { parent_nodes := (split_spaces ((Node.full_scientific_name root p).getD "")).map
      rust_lowercase,
    common_name := bird.name,
    name := bird.scientific_name }

/-- Model of `save_tree` from `file.rs`, up to the out-of-scope file write: one
record per child of each `direct_parents` entry, in index order then
child order. -/
def save_tree (t : BirdTree) : List BirdData :=
  t.direct_parents.flatMap fun p =>
    (idx_from 0 (((t.root.get p).bind Node.children).getD [])).map fun ic =>
      bird_data_from_bird t.root (p ++ [ic.1]) ic.2

/-- The hardcoded fixture of `build_tree` (root subtree). -/
def fixture_root : Node :=
  Node.Group "Animalia" [
    Node.Group "Chordata" [
      Node.Group "Aves" [
        Node.Group "Psittiaciformes" [
          Node.Group "Strigopidae" [
            Node.Group "Nestor" [
              Node.Bird "Kaka" "meridionalis",
              Node.Bird "Kea" "notabilis"]]],
        Node.Group "Apterygiformes" [
          Node.Group "Apterygidae" [
            Node.Group "Apteryx" [
              Node.Bird "Little Spotted Kiwi" "owenii"]]],
        Node.Group "Passeriformes" [
          Node.Group "Rhipiduridae" [
            Node.Group "Rhipidura" [
              Node.Bird "Piwakawaka" "fuliginosa"]],
          Node.Group "Meliphagidae" [
            Node.Group "Prosthemadera" [
              Node.Bird "Tui" "novaeseelandiea"]]]]]]

/-- Model of `build_tree` from `birds.rs`, the fixture tree, with the paths of
Nestor, Apteryx, Rhipidura and Prosthemadera (in that order) as
`direct_parents`. -/
def build_tree : BirdTree :=
  { root := fixture_root,
    direct_parents := [[0, 0, 0, 0, 0], [0, 0, 1, 0, 0], [0, 0, 2, 0, 0], [0, 0, 2, 1, 0]] }

/-! ## Specification-side definitions

These follow the spec's words (not the source) and are compared with the
source translations above in the refinement theorems. -/

mutual

/-- Spec §4.4: the depth-first pre-order listing of a subtree's nodes. -/
def preorder_nodes : Node → List Node
  | Node.Bird nm s => [Node.Bird nm s]
  | Node.Group nm cs => Node.Group nm cs :: preorder_children cs

/-- Pre-order listing of a forest, left to right. -/
def preorder_children : List Node → List Node
  | [] => []
  | c :: rest => preorder_nodes c ++ preorder_children rest

end

/-- Spec §4.4: the children of the leaf-taxa index entries, in index order
then child order — the exact candidate sequence scanned by the searches. -/
def indexed_children (t : BirdTree) : List Node :=
  t.direct_parents.flatMap fun p => ((t.root.get p).bind Node.children).getD []

mutual

/-- Paths (relative to the given node) of every `Bird` in its subtree, in
pre-order. -/
def bird_paths : Node → List (List Nat)
  | Node.Bird _ _ => [[]]
  | Node.Group _ cs => bird_paths_children 0 cs

/-- Bird paths of a forest, with indices starting at `i`. -/
def bird_paths_children (i : Nat) : List Node → List (List Nat)
  | [] => []
  | c :: rest => (bird_paths c).map (i :: ·) ++ bird_paths_children (i + 1) rest

end

/-- Spec §8.4: the set of `(full scientific path, common name)` pairs of
the species of a tree, with the path as the source's
`full_scientific_name` computes it. -/
def species_pairs (root : Node) : List (String × String) :=
  (bird_paths root).map fun p =>
    ((Node.full_scientific_name root p).getD "", ((root.get p).map Node.name).getD "")

/-- The tree invariant behind the `children().unwrap()` calls: the root is
a group, and every `direct_parents` entry resolves to a group node. -/
def tree_inv (t : BirdTree) : Prop :=
  t.root.is_bird = false ∧
    ∀ p ∈ t.direct_parents, ∃ nm cs, t.root.get p = some (Node.Group nm cs)

/-- The three mutating operations a session can apply to a tree. -/
inductive TreeOp where
  | ins (d : BirdData)
  | addG (parent new_name : String)
  | addB (parent name scientific_name : String)

/-- Apply one operation; a failing `add_group`/`add_bird` leaves the tree
as it was (the source returns the error before mutating), and an
`insert_data` call that would panic (empty `parent_path`) reaches no
further state, so it is conservatively modelled as leaving the tree
unchanged. -/
def step_op (t : BirdTree) : TreeOp → BirdTree
  | .ins d => (t.insert_data d).getD t
  | .addG parent nm =>
      match t.add_group parent nm with
      | .ok t2 => t2
      | .error _ => t
  | .addB parent nm s =>
      match t.add_bird parent nm s with
      | .ok t2 => t2
      | .error _ => t

/-- Modelled from the claim's words (C8): the first *direct* child of the
list that is a taxon bearing the name, case/trim-insensitively. -/
def claim_child_match (q : String) : Nat → List Node → Option (Nat × Node)
  | _, [] => none
  | i, c :: rest =>
      match c with
      | Node.Group nm cs =>
          if rust_norm nm = rust_norm q then some (i, Node.Group nm cs)
          else claim_child_match q (i + 1) rest
      | Node.Bird _ _ => claim_child_match q (i + 1) rest

/-- Modelled from the claim's words (C8): descend into a direct child
taxon bearing the name when one exists, otherwise create a new taxon with
that exact name, attach it, and descend. -/
def claim_insert_groups (current : Node) : List String → Node × List Nat
  | [] => (current, [])
  | gname :: rest =>
      match claim_child_match gname 0 (current.children.getD []) with
      | some (i, c) =>
          let r := claim_insert_groups c rest
          (current.modify_at [i] (fun _ => r.1), i :: r.2)
      | none =>
          let idx := (current.children.getD []).length
          let r := claim_insert_groups (Node.Group gname []) rest
          (current.add r.1, idx :: r.2)

/-- Modelled from the claim's words (C8): skip the first element of
`parent_path`, walk/create the chain by *direct-child* lookup, append the
reached taxon to the index and the new species to the taxon. -/
def claim_insert_data (t : BirdTree) (data : BirdData) : BirdTree :=
  let r := claim_insert_groups t.root (data.parent_nodes.drop 1)
  { root := r.1.modify_at r.2 (fun g => g.add (Node.Bird data.common_name data.name)),
    direct_parents := t.direct_parents ++ [r.2] }

/-! Concrete instances used by the counterexamples and witnesses. -/

/-- The fixture after `add_bird("Meliphagidae", "Bellbird", "melanura")`
(the successfully updated tree). -/
def t_bellbird : BirdTree :=
  (build_tree.add_bird "Meliphagidae" "Bellbird" "melanura").toOption.getD build_tree

/-- A minimal tree for the round-trip claim: `Animalia / Chordata`, with
the bird `Kea (notabilis)` under `Chordata`, which is the one indexed
leaf taxon. -/
def t_round : BirdTree :=
  ⟨Node.Group "Animalia" [Node.Group "Chordata" [Node.Bird "Kea" "notabilis"]], [[0]]⟩

/-- The tree `t_round` after re-ingesting its own saved records. -/
def t_round_trip : BirdTree :=
  (save_tree t_round).foldl (fun t d => (t.insert_data d).getD t) t_round

/-- A 26-character name of two-byte code points (`ā` = U+0101): 26 code
points, 52 UTF-8 bytes. -/
def n_umlaut : String := String.mk (List.replicate 26 (Char.ofNat 257))

/-- Taxa-only tree `Animalia / Chordata / Aves` for the ingestion claim. -/
def t_ingest : BirdTree :=
  ⟨Node.Group "Animalia" [Node.Group "Chordata" [Node.Group "Aves" []]], []⟩

/-- A record whose parent path skips straight from the root's name to a
grandchild taxon's name. -/
def rec_aves : BirdData := ⟨["animalia", "aves"], "x", "X"⟩

/-- A two-node taxa-only tree whose root is its own indexed leaf taxon. -/
def t_group_child : BirdTree := ⟨Node.Group "a" [Node.Group "b" []], [[]]⟩

/-- The fixture after ingesting a record whose parent path ends at
`chordata`. -/
def t_chordata_y : BirdTree :=
  (build_tree.insert_data ⟨["animalia", "chordata"], "y", "Y"⟩).getD build_tree

/-- A sample session: one taxon addition, one species addition, one
ingestion. -/
def ops_sample : List TreeOp :=
  [TreeOp.addG "Aves" "Anthornis",
   TreeOp.addB "Anthornis" "Bellbird" "melanura",
   TreeOp.ins ⟨["animalia", "aves"], "x", "X"⟩]

/-- Coverage: `b` covers `a` when every path leading to a group node in `a` leads to a
group node in `b`.  Append-only mutations produce covering trees, which
is what keeps the `direct_parents` paths valid. -/
def covers (b a : Node) : Prop :=
  ∀ p nm cs, a.get p = some (Node.Group nm cs) →
    ∃ nm2 cs2, b.get p = some (Node.Group nm2 cs2)


/-! ## Structural lemmas: paths, point updates and coverage -/

theorem modify_idx_getElem? (f : α → α) (j i : Nat) (l : List α) :
    (modify_idx f j l)[i]? = if i = j then l[i]?.map f else l[i]? := by
  induction l generalizing i j with
  | nil => simp [modify_idx]
  | cons a as ih =>
      cases j with
      | zero =>
          cases i with
          | zero => simp [modify_idx]
          | succ i => simp [modify_idx]
      | succ j =>
          cases i with
          | zero => simp [modify_idx]
          | succ i => simpa [modify_idx] using ih j i

theorem Node.get_append (root : Node) (p q : List Nat) :
    root.get (p ++ q) = (root.get p).bind (fun n => n.get q) := by
  induction p generalizing root with
  | nil => simp [Node.get]
  | cons i p ih =>
      cases root with
      | Bird nm s => simp [Node.get]
      | Group nm cs =>
          simp only [List.cons_append, Node.get]
          cases cs[i]? with
          | none => simp
          | some c => simpa using ih c

theorem Node.get_modify_at_self (root : Node) (p : List Nat) (f : Node → Node) (n : Node)
    (h : root.get p = some n) : (root.modify_at p f).get p = some (f n) := by
  induction p generalizing root with
  | nil =>
      simp only [Node.get, Option.some_inj] at h
      simp [Node.modify_at, Node.get, h]
  | cons i p ih =>
      cases root with
      | Bird nm s => simp [Node.get] at h
      | Group nm cs =>
          simp only [Node.get] at h
          cases hc : cs[i]? with
          | none => rw [hc] at h; simp at h
          | some c =>
              rw [hc] at h
              simp only [Node.modify_at, Node.get, modify_idx_getElem?, if_pos rfl, hc,
                Option.map_some]
              exact ih c h

theorem covers_refl (a : Node) : covers a a := fun _ _ _ h => ⟨_, _, h⟩

theorem covers_trans {a b c : Node} (h1 : covers b a) (h2 : covers c b) : covers c a := by
  intro p nm cs h
  obtain ⟨nm2, cs2, h2'⟩ := h1 p nm cs h
  exact h2 p nm2 cs2 h2'

theorem covers_add (n c : Node) : covers (n.add c) n := by
  intro p nm cs h
  cases n with
  | Bird bn bs =>
      cases p with
      | nil => simp [Node.get] at h
      | cons i q => simp [Node.get] at h
  | Group gn gcs =>
      cases p with
      | nil =>
          simp only [Node.get, Option.some_inj] at h
          exact ⟨nm, cs ++ [c], by rw [h]; rfl⟩
      | cons i q =>
          simp only [Node.get] at h
          cases hc : gcs[i]? with
          | none => rw [hc] at h; simp at h
          | some ch =>
              rw [hc] at h
              obtain ⟨hlt, _⟩ := List.getElem?_eq_some.mp hc
              refine ⟨nm, cs, ?_⟩
              simp only [Node.add, Node.get, List.getElem?_append_left hlt, hc]
              exact h

theorem covers_modify_point (f : Node → Node) (hf : ∀ n, covers (f n) n) :
    ∀ (root : Node) (p0 : List Nat), covers (root.modify_at p0 f) root := by
  intro root p0
  induction p0 generalizing root with
  | nil => exact hf root
  | cons j p0 ih =>
      cases root with
      | Bird bn bs => exact covers_refl _
      | Group gn gcs =>
          intro p nm cs h
          cases p with
          | nil => exact ⟨gn, _, rfl⟩
          | cons i q =>
              simp only [Node.get] at h
              cases hc : gcs[i]? with
              | none => rw [hc] at h; simp at h
              | some ch =>
                  rw [hc] at h
                  simp only [Node.modify_at, Node.get, modify_idx_getElem?, hc]
                  by_cases hij : i = j
                  · subst hij
                    simp only [if_pos rfl, Option.map_some]
                    exact ih ch q nm cs h
                  · simp only [if_neg hij]
                    exact ⟨nm, cs, h⟩

theorem covers_modify_repl (root : Node) (p0 : List Nat) (m r : Node)
    (hg : root.get p0 = some m) (hc : covers r m) :
    covers (root.modify_at p0 (fun _ => r)) root := by
  induction p0 generalizing root with
  | nil =>
      simp only [Node.get, Option.some_inj] at hg
      subst hg
      exact hc
  | cons j p0 ih =>
      cases root with
      | Bird bn bs => simp [Node.get] at hg
      | Group gn gcs =>
          simp only [Node.get] at hg
          cases hj : gcs[j]? with
          | none => rw [hj] at hg; simp at hg
          | some ch =>
              rw [hj] at hg
              intro p nm cs h
              cases p with
              | nil => exact ⟨gn, _, rfl⟩
              | cons i q =>
                  simp only [Node.get] at h
                  cases hi : gcs[i]? with
                  | none => rw [hi] at h; simp at h
                  | some ch2 =>
                      rw [hi] at h
                      simp only [Node.modify_at, Node.get, modify_idx_getElem?, hi]
                      by_cases hij : i = j
                      · subst hij
                        rw [hi] at hj
                        cases hj
                        simp only [if_pos rfl, Option.map_some]
                        exact ih ch hg q nm cs h
                      · simp only [if_neg hij]
                        exact ⟨nm, cs, h⟩


/-! ## Characterisation of `get_group_with_name` -/

theorem direct_match_some (q : String) :
    ∀ (l : List Node) (i : Nat) (p : List Nat) (n : Node),
      direct_match q i l = some (p, n) →
      ∃ j, p = [i + j] ∧ l[j]? = some n ∧
        ∃ nm cs, n = Node.Group nm cs ∧ rust_norm nm = rust_norm q := by
  intro l
  induction l with
  | nil => intro i p n h; simp [direct_match] at h
  | cons c rest ih =>
      intro i p n h
      cases c with
      | Group nm cs =>
          by_cases hq : rust_norm nm = rust_norm q
          · simp only [direct_match, if_pos hq, Option.some_inj] at h
            injection h with h1 h2
            subst h1; subst h2
            exact ⟨0, by simp, by simp, nm, cs, rfl, hq⟩
          · simp only [direct_match, if_neg hq] at h
            obtain ⟨j, hp, hl, hrest⟩ := ih (i + 1) p n h
            refine ⟨j + 1, ?_, by simpa using hl, hrest⟩
            rw [hp]
            congr 1
            omega
      | Bird bn bs =>
          simp only [direct_match] at h
          obtain ⟨j, hp, hl, hrest⟩ := ih (i + 1) p n h
          refine ⟨j + 1, ?_, by simpa using hl, hrest⟩
          rw [hp]
          congr 1
          omega

theorem direct_match_none (q : String) :
    ∀ (l : List Node) (i : Nat), direct_match q i l = none →
      ∀ (j : Nat) (nm : String) (cs : List Node),
        l[j]? = some (Node.Group nm cs) → rust_norm nm ≠ rust_norm q := by
  intro l
  induction l with
  | nil => intro i _ j nm cs hj; simp at hj
  | cons c rest ih =>
      intro i h j nm cs hj
      cases c with
      | Group nm0 cs0 =>
          by_cases hq : rust_norm nm0 = rust_norm q
          · simp [direct_match, if_pos hq] at h
          · simp only [direct_match, if_neg hq] at h
            cases j with
            | zero =>
                simp only [List.getElem?_cons_zero, Option.some_inj] at hj
                injection hj with hj1 hj2
                subst hj1
                exact hq
            | succ j =>
                simp only [List.getElem?_cons_succ] at hj
                exact ih (i + 1) h j nm cs hj
      | Bird bn bs =>
          simp only [direct_match] at h
          cases j with
          | zero => simp at hj
          | succ j =>
              simp only [List.getElem?_cons_succ] at hj
              exact ih (i + 1) h j nm cs hj

theorem get_group_with_name_spec :
    ∀ (g : Node) (q : String) (p : List Nat) (n : Node),
      get_group_with_name g q = some (p, n) →
      g.get p = some n ∧ p ≠ [] ∧
        ∃ nm cs, n = Node.Group nm cs ∧ rust_norm nm = rust_norm q := by
  have main := get_group_with_name.induct
    (fun g q => ∀ p n, get_group_with_name g q = some (p, n) →
      g.get p = some n ∧ p ≠ [] ∧
        ∃ nm cs, n = Node.Group nm cs ∧ rust_norm nm = rust_norm q)
    (fun q i l => ∀ p n, deep_match q i l = some (p, n) →
      ∃ j c p2, p = (i + j) :: p2 ∧ l[j]? = some c ∧ c.get p2 = some n ∧
        ∃ nm cs, n = Node.Group nm cs ∧ rust_norm nm = rust_norm q)
  refine main ?_ ?_ ?_ ?_ ?_ ?_ ?_
  · intro q bn bs p n h
    simp [get_group_with_name] at h
  · intro q nm children r hd p n h
    simp only [get_group_with_name, hd, Option.some_inj] at h
    subst h
    obtain ⟨j, hp, hl, hrest⟩ := direct_match_some q children 0 p n hd
    subst hp
    refine ⟨?_, by simp, hrest⟩
    simp only [Node.get, Nat.zero_add, hl]
  · intro q nm children hd ih p n h
    simp only [get_group_with_name, hd] at h
    obtain ⟨j, c, p2, hp, hj, hc, hrest⟩ := ih p n h
    subst hp
    refine ⟨?_, by simp, hrest⟩
    simp only [Node.get, Nat.zero_add, hj, hc]
  · intro q i p n h
    simp [deep_match] at h
  · intro q i rest a a1 pc nc hg ih1 p n h
    simp only [deep_match, hg, Option.some_inj, Prod.mk.injEq] at h
    obtain ⟨hp, hn⟩ := h
    subst hp; subst hn
    obtain ⟨hget, hne, hrest⟩ := ih1 pc nc hg
    exact ⟨0, Node.Group a a1, pc, by simp, by simp, hget, hrest⟩
  · intro q i rest a a1 hg ih1 ih2 p n h
    simp only [deep_match, hg] at h
    obtain ⟨j, c, p2, hp, hj, hc, hrest⟩ := ih2 p n h
    refine ⟨j + 1, c, p2, ?_, by simpa using hj, hc, hrest⟩
    rw [hp]
    congr 1
    omega
  · intro q i rest a a1 ih2 p n h
    simp only [deep_match] at h
    obtain ⟨j, c, p2, hp, hj, hc, hrest⟩ := ih2 p n h
    refine ⟨j + 1, c, p2, ?_, by simpa using hj, hc, hrest⟩
    rw [hp]
    congr 1
    omega


theorem get_group_with_name_none :
    ∀ (g : Node) (q : String), get_group_with_name g q = none →
      ∀ (p : List Nat) (nm : String) (cs : List Node),
        g.get p = some (Node.Group nm cs) → p ≠ [] → rust_norm nm ≠ rust_norm q := by
  have main := get_group_with_name.induct
    (fun g q => get_group_with_name g q = none →
      ∀ (p : List Nat) (nm : String) (cs : List Node),
        g.get p = some (Node.Group nm cs) → p ≠ [] → rust_norm nm ≠ rust_norm q)
    (fun q i l => deep_match q i l = none →
      ∀ (j : Nat) (c : Node), l[j]? = some c →
        ∀ (p : List Nat) (nm : String) (cs : List Node),
          c.get p = some (Node.Group nm cs) → p ≠ [] → rust_norm nm ≠ rust_norm q)
  refine main ?_ ?_ ?_ ?_ ?_ ?_ ?_
  · intro q bn bs _ p nm cs hp hne
    cases p with
    | nil => exact absurd hp (by simp [Node.get])
    | cons i p2 => simp [Node.get] at hp
  · intro q gn children r hd hnone
    simp [get_group_with_name, hd] at hnone
  · intro q gn children hd ih hnone p nm cs hp hne
    simp only [get_group_with_name, hd] at hnone
    cases p with
    | nil => exact absurd rfl hne
    | cons i p2 =>
        simp only [Node.get] at hp
        cases hi : children[i]? with
        | none => rw [hi] at hp; simp at hp
        | some c =>
            rw [hi] at hp
            cases p2 with
            | nil =>
                simp only [Node.get, Option.some_inj] at hp
                subst hp
                exact direct_match_none q children 0 hd i nm cs hi
            | cons i2 p3 =>
                exact ih hnone i c hi (i2 :: p3) nm cs hp (by simp)
  · intro q x _ j c hj
    simp at hj
  · intro q i rest a a1 pc nc hg ih1 hnone
    simp [deep_match, hg] at hnone
  · intro q i rest a a1 hg ih1 ih2 hnone j c hj p nm cs hp hne
    simp only [deep_match, hg] at hnone
    cases j with
    | zero =>
        simp only [List.getElem?_cons_zero, Option.some_inj] at hj
        subst hj
        exact ih1 hg p nm cs hp hne
    | succ j =>
        simp only [List.getElem?_cons_succ] at hj
        exact ih2 hnone j c hj p nm cs hp hne
  · intro q i rest a a1 ih2 hnone j c hj p nm cs hp hne
    simp only [deep_match] at hnone
    cases j with
    | zero =>
        simp only [List.getElem?_cons_zero, Option.some_inj] at hj
        subst hj
        cases p with
        | nil => exact absurd rfl hne
        | cons i2 p2 => simp [Node.get] at hp
    | succ j =>
        simp only [List.getElem?_cons_succ] at hj
        exact ih2 hnone j c hj p nm cs hp hne


/-! ## Enumeration and search refinements -/

theorem birds_in_group_eq_filter :
    ∀ n : Node, n.is_bird = false →
      birds_in_group n = (preorder_nodes n).filter Node.is_bird := by
  have main := birds_in_group.induct
    (fun n => n.is_bird = false →
      birds_in_group n = (preorder_nodes n).filter Node.is_bird)
    (fun l => birds_in_children l = (preorder_children l).filter Node.is_bird)
  refine main ?_ ?_ ?_ ?_ ?_
  · intro nm s h
    simp [Node.is_bird] at h
  · intro nm children ih _
    simp [birds_in_group, preorder_nodes, List.filter, Node.is_bird, ih]
  · simp [birds_in_children, preorder_children, List.filter]
  · intro rest nm s ih
    simp [birds_in_children, preorder_children, preorder_nodes, List.filter_append,
      List.filter, Node.is_bird, ih]
  · intro rest nm children ih1 ih2
    simp only [birds_in_children, preorder_children, List.filter_append, ih2]
    rw [ih1 rfl]

theorem search_by_name_eq_find (t : BirdTree) (q : String) :
    t.search_by_name q
      = (indexed_children t).find? (fun c => rust_norm c.name == rust_norm q) := by
  unfold BirdTree.search_by_name indexed_children
  rw [List.flatMap_def, List.find?_flatten, List.findSome?_map]
  rfl

theorem search_by_scientific_name_eq_find (t : BirdTree) (q : String) :
    t.search_by_scientific_name q
      = (indexed_children t).find? (fun c => rust_norm c.scientific_name == rust_norm q) := by
  unfold BirdTree.search_by_scientific_name indexed_children
  rw [List.flatMap_def, List.find?_flatten, List.findSome?_map]
  rfl

/-! ## Postconditions of the ingestion descent -/

theorem Node.is_bird_add (n c : Node) (h : n.is_bird = false) :
    (n.add c).is_bird = false := by
  cases n <;> simp_all [Node.add, Node.is_bird]

theorem Node.is_bird_modify_at (n : Node) (p : List Nat) (f : Node → Node)
    (h : n.is_bird = false) (hf : ∀ m, m.is_bird = false → (f m).is_bird = false) :
    (n.modify_at p f).is_bird = false := by
  cases p with
  | nil => exact hf n h
  | cons i p2 =>
      cases n with
      | Group nm cs => simp [Node.modify_at, Node.is_bird]
      | Bird nm s => simp [Node.is_bird] at h

theorem insert_groups_not_bird :
    ∀ (names : List String) (current : Node), current.is_bird = false →
      ((insert_groups current names).1).is_bird = false := by
  intro names
  induction names with
  | nil => intro current h; simpa [insert_groups] using h
  | cons g rest ih =>
      intro current h
      cases hg : get_group_with_name current g with
      | none =>
          simp only [insert_groups, hg]
          exact Node.is_bird_add _ _ h
      | some r =>
          obtain ⟨p, gnode⟩ := r
          obtain ⟨hget, hne, nm, cs, hn, hq⟩ := get_group_with_name_spec current g p gnode hg
          simp only [insert_groups, hg]
          exact Node.is_bird_modify_at _ _ _ h
            (fun m _ => ih gnode (by rw [hn]; rfl))

theorem insert_groups_get :
    ∀ (names : List String) (current : Node), current.is_bird = false →
      ∃ nm cs, ((insert_groups current names).1).get ((insert_groups current names).2)
        = some (Node.Group nm cs) := by
  intro names
  induction names with
  | nil =>
      intro current h
      cases current with
      | Bird nm s => simp [Node.is_bird] at h
      | Group nm cs => exact ⟨nm, cs, rfl⟩
  | cons g rest ih =>
      intro current h
      cases hg : get_group_with_name current g with
      | none =>
          obtain ⟨nm2, cs2, hr⟩ := ih (Node.Group g []) rfl
          cases current with
          | Bird nm s => simp [Node.is_bird] at h
          | Group cn ccs =>
              refine ⟨nm2, cs2, ?_⟩
              simp only [insert_groups, hg, Node.children, Option.getD, Node.add, Node.get]
              rw [List.getElem?_concat_length]
              exact hr
      | some r =>
          obtain ⟨p, gnode⟩ := r
          obtain ⟨hget, hne, nm, cs, hn, hq⟩ := get_group_with_name_spec current g p gnode hg
          obtain ⟨nm2, cs2, hr⟩ := ih gnode (by rw [hn]; rfl)
          refine ⟨nm2, cs2, ?_⟩
          simp only [insert_groups, hg]
          rw [Node.get_append, Node.get_modify_at_self current p _ gnode hget]
          simpa using hr

theorem insert_groups_covers :
    ∀ (names : List String) (current : Node),
      covers ((insert_groups current names).1) current := by
  intro names
  induction names with
  | nil => intro current; exact covers_refl _
  | cons g rest ih =>
      intro current
      cases hg : get_group_with_name current g with
      | none =>
          simp only [insert_groups, hg]
          exact covers_add _ _
      | some r =>
          obtain ⟨p, gnode⟩ := r
          obtain ⟨hget, _, _⟩ := get_group_with_name_spec current g p gnode hg
          simp only [insert_groups, hg]
          exact covers_modify_repl current p gnode _ hget (ih gnode)


/-! ## Preservation of the tree invariant -/

theorem tree_inv_new (root : Node) (dps : List (List Nat)) (t : BirdTree)
    (h : BirdTree.new root dps = some t) : tree_inv t := by
  simp only [BirdTree.new] at h
  split at h
  · exact absurd h (by simp)
  · split at h
    · next hb hall =>
        simp only [Option.some_inj] at h
        subst h
        refine ⟨by simpa using hb, ?_⟩
        intro p hp
        have hpp := List.all_eq_true.mp hall p hp
        cases hn : root.get p with
        | none => rw [hn] at hpp; simp at hpp
        | some n =>
            rw [hn] at hpp
            cases n with
            | Bird nm s => simp [Node.is_bird] at hpp
            | Group nm cs => exact ⟨nm, cs, rfl⟩
    · exact absurd h (by simp)

theorem tree_inv_insert_data (t : BirdTree) (d : BirdData) (t2 : BirdTree)
    (h : t.insert_data d = some t2) (hi : tree_inv t) : tree_inv t2 := by
  obtain ⟨hroot, hdp⟩ := hi
  cases hd : d.parent_nodes with
  | nil => simp [BirdTree.insert_data, hd] at h
  | cons x names =>
      simp only [BirdTree.insert_data, hd, Option.some_inj] at h
      subst h
      have hcov1 := insert_groups_covers names t.root
      have hcov2 := covers_modify_point
        (fun g => g.add (Node.Bird d.common_name d.name))
        (fun n => covers_add n _)
        ((insert_groups t.root names).1)
        ((insert_groups t.root names).2)
      constructor
      · exact Node.is_bird_modify_at _ _ _
          (insert_groups_not_bird _ _ hroot)
          (fun m hm => Node.is_bird_add _ _ hm)
      · intro p hp
        rcases List.mem_append.mp hp with hold | hnew
        · obtain ⟨nm, cs, hg⟩ := hdp p hold
          exact covers_trans hcov1 hcov2 p nm cs hg
        · have hpe : p = (insert_groups t.root names).2 := by
            simpa using hnew
          subst hpe
          obtain ⟨nm, cs, hg⟩ := insert_groups_get names t.root hroot
          refine ⟨nm, cs ++ [Node.Bird d.common_name d.name], ?_⟩
          rw [Node.get_modify_at_self _ _ _ _ hg]
          rfl

theorem tree_inv_add_group (t : BirdTree) (a b : String) (t2 : BirdTree)
    (h : t.add_group a b = .ok t2) (hi : tree_inv t) : tree_inv t2 := by
  obtain ⟨hroot, hdp⟩ := hi
  simp only [BirdTree.add_group] at h
  split at h
  · exact absurd h (by simp)
  · cases hg : get_group_with_name t.root a with
    | none => rw [hg] at h; exact absurd h (by simp)
    | some r =>
        obtain ⟨p, gnode⟩ := r
        rw [hg] at h
        simp only [Except.ok.injEq] at h
        subst h
        constructor
        · exact Node.is_bird_modify_at _ _ _ hroot (fun m hm => Node.is_bird_add _ _ hm)
        · intro q hq
          obtain ⟨nm, cs, hget⟩ := hdp q hq
          exact covers_modify_point _ (fun n => covers_add n _) t.root p q nm cs hget

theorem tree_inv_add_bird (t : BirdTree) (a b c : String) (t2 : BirdTree)
    (h : t.add_bird a b c = .ok t2) (hi : tree_inv t) : tree_inv t2 := by
  obtain ⟨hroot, hdp⟩ := hi
  simp only [BirdTree.add_bird] at h
  split at h
  · exact absurd h (by simp)
  · cases hg : get_group_with_name t.root a with
    | none => rw [hg] at h; exact absurd h (by simp)
    | some r =>
        obtain ⟨p, gnode⟩ := r
        rw [hg] at h
        simp only [Except.ok.injEq] at h
        subst h
        constructor
        · exact Node.is_bird_modify_at _ _ _ hroot (fun m hm => Node.is_bird_add _ _ hm)
        · intro q hq
          obtain ⟨nm, cs, hget⟩ := hdp q hq
          exact covers_modify_point _ (fun n => covers_add n _) t.root p q nm cs hget

theorem tree_inv_step_op (t : BirdTree) (op : TreeOp) (h : tree_inv t) :
    tree_inv (step_op t op) := by
  cases op with
  | ins d =>
      simp only [step_op]
      cases hi2 : t.insert_data d with
      | none => exact h
      | some t2 => exact tree_inv_insert_data t d t2 hi2 h
  | addG parent nm =>
      simp only [step_op]
      cases ha : t.add_group parent nm with
      | ok t2 => exact tree_inv_add_group t parent nm t2 ha h
      | error e => exact h
  | addB parent nm s =>
      simp only [step_op]
      cases ha : t.add_bird parent nm s with
      | ok t2 => exact tree_inv_add_bird t parent nm s t2 ha h
      | error e => exact h

theorem tree_inv_foldl (ops : List TreeOp) (t : BirdTree) (h : tree_inv t) :
    tree_inv (ops.foldl step_op t) := by
  induction ops generalizing t with
  | nil => exact h
  | cons op rest ih => exact ih (step_op t op) (tree_inv_step_op t op h)


/-! ## Record decomposition for the save path -/

theorem idx_from_mem_imp :
    ∀ (l : List α) (n i : Nat) (a : α), (i, a) ∈ idx_from n l →
      ∃ j, i = n + j ∧ l[j]? = some a := by
  intro l
  induction l with
  | nil => intro n i a h; simp [idx_from] at h
  | cons b bs ih =>
      intro n i a h
      simp only [idx_from, List.mem_cons] at h
      rcases h with h | h
      · injection h with h1 h2
        subst h1; subst h2
        exact ⟨0, by omega, by simp⟩
      · obtain ⟨j, hj1, hj2⟩ := ih (n + 1) i a h
        exact ⟨j + 1, by omega, by simpa using hj2⟩

/-! ## The claims -/

/-- C1: the claim reads `full_scientific_name(s)` as the names from the
root down to the parent followed by the epithet, and the node's own
`scientific_name` for a parentless node.  The code instead starts the
chain at the root's *child* (the root's own name never appears) and returns `None`
for a parentless node: evaluated on the fixture, Kea's full name is
`"Chordata Aves Psittiaciformes Strigopidae Nestor notabilis"` — no
`"Animalia"` — and the root's full name is `none`. -/
theorem c1_full_scientific_name_eval :
    build_tree.root.get [0, 0, 0, 0, 0, 1] = some (Node.Bird "Kea" "notabilis")
    ∧ Node.full_scientific_name build_tree.root [0, 0, 0, 0, 0, 1]
        = some "Chordata Aves Psittiaciformes Strigopidae Nestor notabilis"
    ∧ Node.full_scientific_name build_tree.root [] = none :=
  ⟨rfl, rfl, rfl⟩

/-- C2 counterexample: the walk never compares the tree's root itself, so
`species_in_taxon` on the root's own name fails with `NoSuchTaxon` even
though the claim says the root is included and its subtree holds every
species. -/
theorem c2_root_never_matched :
    build_tree.root.name = "Animalia"
    ∧ build_tree.birds_in_group_from_name "Animalia"
        = Except.error GroupError.NoGroupExistsErr
    ∧ build_tree.birds_in_group_from_name "Aves"
        = Except.ok [Node.Bird "Kaka" "meridionalis", Node.Bird "Kea" "notabilis",
            Node.Bird "Little Spotted Kiwi" "owenii", Node.Bird "Piwakawaka" "fuliginosa",
            Node.Bird "Tui" "novaeseelandiea"] :=
  ⟨rfl, rfl, rfl⟩

/-- C2 (amended): `species_in_taxon(q)` fails with `NoSuchTaxon` exactly
when no taxon *strictly below* the root matches `q` case/trim-insensitively
(the root itself is never compared); on success it returns exactly the
species of a matching non-root taxon's subtree, in pre-order. -/
theorem c2_species_in_taxon_amended (t : BirdTree) (q : String) :
    (t.birds_in_group_from_name q = Except.error GroupError.NoGroupExistsErr ↔
      ∀ (p : List Nat) (nm : String) (cs : List Node),
        t.root.get p = some (Node.Group nm cs) → p ≠ [] → rust_norm nm ≠ rust_norm q)
    ∧ ∀ l, t.birds_in_group_from_name q = Except.ok l →
        ∃ (p : List Nat) (nm : String) (cs : List Node),
          p ≠ [] ∧ t.root.get p = some (Node.Group nm cs) ∧ rust_norm nm = rust_norm q ∧
          l = (preorder_nodes (Node.Group nm cs)).filter Node.is_bird := by
  constructor
  · constructor
    · intro he
      cases hg : get_group_with_name t.root q with
      | none => exact get_group_with_name_none t.root q hg
      | some r =>
          obtain ⟨p, n⟩ := r
          simp [BirdTree.birds_in_group_from_name, hg] at he
    · intro hno
      cases hg : get_group_with_name t.root q with
      | none => simp [BirdTree.birds_in_group_from_name, hg]
      | some r =>
          obtain ⟨p, n⟩ := r
          obtain ⟨hget, hne, nm, cs, hn, hq⟩ := get_group_with_name_spec _ _ _ _ hg
          subst hn
          exact absurd hq (hno p nm cs hget hne)
  · intro l hl
    cases hg : get_group_with_name t.root q with
    | none => simp [BirdTree.birds_in_group_from_name, hg] at hl
    | some r =>
        obtain ⟨p, n⟩ := r
        obtain ⟨hget, hne, nm, cs, hn, hq⟩ := get_group_with_name_spec _ _ _ _ hg
        subst hn
        simp only [BirdTree.birds_in_group_from_name, hg, Except.ok.injEq] at hl
        subst hl
        exact ⟨p, nm, cs, hne, hget, hq, birds_in_group_eq_filter _ rfl⟩

/-- C2 witness: on the fixture, `species_in_taxon("Aves")` returns the
five species of the `Aves` subtree in pre-order. -/
theorem c2_witness :
    ∃ (p : List Nat) (nm : String) (cs : List Node),
      p ≠ [] ∧ build_tree.root.get p = some (Node.Group nm cs) ∧
      rust_norm nm = rust_norm "Aves" ∧
      ([Node.Bird "Kaka" "meridionalis", Node.Bird "Kea" "notabilis",
        Node.Bird "Little Spotted Kiwi" "owenii", Node.Bird "Piwakawaka" "fuliginosa",
        Node.Bird "Tui" "novaeseelandiea"] : List Node)
        = (preorder_nodes (Node.Group nm cs)).filter Node.is_bird :=
  (c2_species_in_taxon_amended build_tree "Aves").2 _ rfl


/-- C3 counterexample: `add_bird` under `Meliphagidae` (a taxon not in the
leaf-taxa index) succeeds and appends the bird, but `direct_parents` is
left untouched, so `search_by_common_name` does not find the new
species. -/
theorem c3_add_bird_not_indexed :
    build_tree.add_bird "Meliphagidae" "Bellbird" "melanura" = Except.ok t_bellbird
    ∧ t_bellbird.direct_parents = build_tree.direct_parents
    ∧ ([0, 0, 2, 1] : List Nat) ∉ t_bellbird.direct_parents
    ∧ t_bellbird.root.get [0, 0, 2, 1, 1] = some (Node.Bird "Bellbird" "melanura")
    ∧ t_bellbird.search_by_name "Bellbird" = none :=
  ⟨rfl, rfl, by decide, rfl, rfl⟩

/-- C3 (amended): a successful `add_bird` never touches the leaf-taxa
index; the species is appended under the located parent, and
`search_by_common_name` returns a matching species only under the extra
assumption that the parent was already in the index. -/
theorem c3_add_bird_amended (t t2 : BirdTree) (parent c e : String)
    (h : t.add_bird parent c e = Except.ok t2) :
    t2.direct_parents = t.direct_parents
    ∧ ∃ (p : List Nat) (g : Node), get_group_with_name t.root parent = some (p, g) ∧
        (p ∈ t.direct_parents →
          ∃ b, t2.search_by_name c = some b ∧ rust_norm b.name = rust_norm c) := by
  simp only [BirdTree.add_bird] at h
  split at h
  · exact absurd h (by simp)
  · cases hg : get_group_with_name t.root parent with
    | none => rw [hg] at h; exact absurd h (by simp)
    | some r =>
        obtain ⟨p, gnode⟩ := r
        rw [hg] at h
        simp only [Except.ok.injEq] at h
        subst h
        refine ⟨rfl, p, gnode, rfl, ?_⟩
        intro hmem
        obtain ⟨hget, hne, nm, cs, hn, hq⟩ := get_group_with_name_spec _ _ _ _ hg
        subst hn
        have hb : Node.Bird c e ∈ indexed_children
            ⟨t.root.modify_at p (fun g => g.add (Node.Bird c e)), t.direct_parents⟩ := by
          apply List.mem_flatMap.mpr
          refine ⟨p, hmem, ?_⟩
          rw [Node.get_modify_at_self _ _ _ _ hget]
          simp [Node.add, Node.children]
        have hsome : ((indexed_children
            ⟨t.root.modify_at p (fun g => g.add (Node.Bird c e)), t.direct_parents⟩).find?
              (fun cnode => rust_norm cnode.name == rust_norm c)).isSome :=
          List.find?_isSome.mpr ⟨Node.Bird c e, hb, by simp [Node.name]⟩
        obtain ⟨b, hbfind⟩ := Option.isSome_iff_exists.mp hsome
        refine ⟨b, ?_, ?_⟩
        · rw [search_by_name_eq_find]
          exact hbfind
        · simpa using List.find?_some hbfind

/-- C3 witness: the amended statement applied to the counterexample
call. -/
theorem c3_witness :
    t_bellbird.direct_parents = build_tree.direct_parents
    ∧ ∃ (p : List Nat) (g : Node),
        get_group_with_name build_tree.root "Meliphagidae" = some (p, g) ∧
        (p ∈ build_tree.direct_parents →
          ∃ b, t_bellbird.search_by_name "Bellbird" = some b ∧
            rust_norm b.name = rust_norm "Bellbird") :=
  c3_add_bird_amended build_tree t_bellbird "Meliphagidae" "Bellbird" "melanura" rfl

/-- C4 counterexample: the first record saved from the fixture carries
`parentNodes = ["chordata", …, "nestor", "meridionalis"]` — the root
taxon `animalia` is missing and the epithet `meridionalis` is included —
which differs from the claimed root-to-parent taxon list. -/
theorem c4_parent_nodes_counterexample :
    (save_tree build_tree).head? = some
      ⟨["chordata", "aves", "psittiaciformes", "strigopidae", "nestor", "meridionalis"],
        "meridionalis", "Kaka"⟩
    ∧ ["chordata", "aves", "psittiaciformes", "strigopidae", "nestor", "meridionalis"]
        ≠ ["animalia", "chordata", "aves", "psittiaciformes", "strigopidae", "nestor"] :=
  ⟨rfl, by decide⟩

/-- C4 (amended): every record emitted by `save_tree` comes from a child
`c` (at index `i`) of an indexed taxon (at path `p`): its `parentNodes`
field is the space-split, lowercased form of the child's full scientific
name as `full_scientific_name` computes it (running from the root's
first descendant down to the parent and ending with the child's
scientific name), its `name` field is the child's scientific name and its
`commonName` field is the child's common name. -/
theorem c4_save_records_amended (t : BirdTree) (r : BirdData) (hr : r ∈ save_tree t) :
    ∃ (p : List Nat) (i : Nat) (c : Node),
      p ∈ t.direct_parents
      ∧ ((((t.root.get p).bind Node.children).getD [])[i]?) = some c
      ∧ r.parent_nodes = (split_spaces
          ((Node.full_scientific_name t.root (p ++ [i])).getD "")).map rust_lowercase
      ∧ r.name = c.scientific_name
      ∧ r.common_name = c.name := by
  obtain ⟨p, hp, hrec⟩ := List.mem_flatMap.mp hr
  obtain ⟨ic, hic, heq⟩ := List.mem_map.mp hrec
  obtain ⟨i, c⟩ := ic
  obtain ⟨j, hij, hjc⟩ := idx_from_mem_imp _ 0 i c hic
  subst heq
  refine ⟨p, i, c, hp, ?_, rfl, rfl, rfl⟩
  rw [show i = j by omega]
  exact hjc

/-- C4 witness: the decomposition applied to the fixture's first saved
record. -/
theorem c4_witness :
    ∃ (p : List Nat) (i : Nat) (c : Node),
      p ∈ build_tree.direct_parents
      ∧ ((((build_tree.root.get p).bind Node.children).getD [])[i]?) = some c
      ∧ (["chordata", "aves", "psittiaciformes", "strigopidae", "nestor", "meridionalis"]
          : List String) = (split_spaces
          ((Node.full_scientific_name build_tree.root (p ++ [i])).getD "")).map rust_lowercase
      ∧ "meridionalis" = c.scientific_name
      ∧ "Kaka" = c.name :=
  c4_save_records_amended build_tree
    ⟨["chordata", "aves", "psittiaciformes", "strigopidae", "nestor", "meridionalis"],
      "meridionalis", "Kaka"⟩
    (by rw [show save_tree build_tree = ⟨["chordata", "aves", "psittiaciformes",
        "strigopidae", "nestor", "meridionalis"], "meridionalis", "Kaka"⟩
        :: (save_tree build_tree).tail from rfl]
        exact List.mem_cons_self _ _)

/-- C5: saving and re-ingesting the two-taxon tree `t_round` does not
reproduce its `(full path, common name)` pairs: the saved record's
`parent_nodes` ends with the epithet, so ingestion manufactures a new
taxon `notabilis` and the re-ingested Kea acquires the fresh pair
`("notabilis notabilis", "Kea")`, which the original tree does not
contain. -/
theorem c5_round_trip_eval :
    save_tree t_round = [⟨["chordata", "notabilis"], "notabilis", "Kea"⟩]
    ∧ species_pairs t_round.root = [("Chordata notabilis", "Kea")]
    ∧ species_pairs t_round_trip.root
        = [("Chordata notabilis", "Kea"), ("notabilis notabilis", "Kea")]
    ∧ ("notabilis notabilis", "Kea") ∉ species_pairs t_round.root :=
  ⟨rfl, rfl, rfl, by decide⟩

/-- C6 counterexample: a 26-code-point name of two-byte characters is
rejected with `InputOutOfBounds` by `add_group` and `add_bird`, although
by the claim (0 or more than 50 *code points*, and only then) it should
be accepted: the source measures Rust's byte length. -/
theorem c6_bytes_not_codepoints :
    n_umlaut.length = 26
    ∧ rust_len n_umlaut = 52
    ∧ build_tree.add_group "Nestor" n_umlaut
        = Except.error GroupError.InputOutsideOfBoundsError
    ∧ build_tree.add_bird "Nestor" n_umlaut "x"
        = Except.error GroupError.InputOutsideOfBoundsError
    ∧ build_tree.add_bird "Nestor" "x" n_umlaut
        = Except.error GroupError.InputOutsideOfBoundsError :=
  ⟨by decide, by decide, rfl, rfl, rfl⟩

/-- C6 (amended): `add_group` fails with `InputOutOfBounds` exactly when
the new name's UTF-8 *byte* length is 0 or exceeds 50 — regardless of the
parent name — and `add_bird` exactly when the common name's or the
scientific name's byte length is; the error is returned before any
lookup or mutation, so the failed call produces no modified tree. -/
theorem c6_validation_amended (t : BirdTree) (parent n c e : String) :
    (t.add_group parent n = Except.error GroupError.InputOutsideOfBoundsError ↔
      rust_len n < 1 ∨ rust_len n > 50)
    ∧ (t.add_bird parent c e = Except.error GroupError.InputOutsideOfBoundsError ↔
      rust_len c < 1 ∨ rust_len c > 50 ∨ rust_len e < 1 ∨ rust_len e > 50) := by
  constructor
  · constructor
    · intro h
      simp only [BirdTree.add_group] at h
      split at h
      · next hcond => exact hcond
      · cases hg : get_group_with_name t.root parent with
        | none => rw [hg] at h; simp at h
        | some r => obtain ⟨p, g⟩ := r; rw [hg] at h; simp at h
    · intro h
      simp only [BirdTree.add_group, if_pos h]
  · constructor
    · intro h
      simp only [BirdTree.add_bird] at h
      split at h
      · next hcond => exact hcond
      · cases hg : get_group_with_name t.root parent with
        | none => rw [hg] at h; simp at h
        | some r => obtain ⟨p, g⟩ := r; rw [hg] at h; simp at h
    · intro h
      simp only [BirdTree.add_bird, if_pos h]

/-- C6 witness: the empty name is rejected through the amended
equivalence. -/
theorem c6_witness :
    build_tree.add_group "Nestor" "" = Except.error GroupError.InputOutsideOfBoundsError :=
  (c6_validation_amended build_tree "Nestor" "" "x" "y").1.mpr (Or.inl (by decide))


/-- C7: both searches scan exactly the children of the leaf-taxa index
entries, index order first, child order second, returning the first child
whose lowercased-and-trimmed name (common, respectively scientific)
equals the lowercased-and-trimmed query; they return `none` exactly when
no indexed child matches. -/
theorem c7_search_first_match (t : BirdTree) (q : String) :
    t.search_by_name q
      = (indexed_children t).find? (fun c => rust_norm c.name == rust_norm q)
    ∧ t.search_by_scientific_name q
      = (indexed_children t).find? (fun c => rust_norm c.scientific_name == rust_norm q)
    ∧ (t.search_by_name q = none ↔
        ∀ c ∈ indexed_children t, rust_norm c.name ≠ rust_norm q)
    ∧ (t.search_by_scientific_name q = none ↔
        ∀ c ∈ indexed_children t, rust_norm c.scientific_name ≠ rust_norm q) := by
  refine ⟨search_by_name_eq_find t q, search_by_scientific_name_eq_find t q, ?_, ?_⟩
  · rw [search_by_name_eq_find, List.find?_eq_none]
    simp
  · rw [search_by_scientific_name_eq_find, List.find?_eq_none]
    simp

/-- C7 witness: the fixture's whitespace/case-normalised search for Kea
agrees with the first-match scan. -/
theorem c7_witness :
    build_tree.search_by_name "  KeA "
      = (indexed_children build_tree).find? (fun c => rust_norm c.name == rust_norm "  KeA ")
    ∧ build_tree.search_by_name "  KeA " = some (Node.Bird "Kea" "notabilis") :=
  ⟨(c7_search_first_match build_tree "  KeA ").1, rfl⟩

/-- C8 counterexample: ingesting `["animalia", "aves"]` into
`Animalia / Chordata / Aves` descends into the *grandchild* taxon `Aves`
found by the subtree-wide search, whereas the claim's direct-child
procedure would have created a second child of the root named `aves`:
the code's root keeps one child while the claim's procedure yields
two. -/
theorem c8_subtree_search_not_direct :
    t_ingest.insert_data rec_aves = some ⟨Node.Group "Animalia"
        [Node.Group "Chordata" [Node.Group "Aves" [Node.Bird "X" "x"]]], [[0, 0]]⟩
    ∧ ((((t_ingest.insert_data rec_aves).getD t_ingest).root.children).getD []).length = 1
    ∧ (((claim_insert_data t_ingest rec_aves).root.children).getD []).length = 2 :=
  ⟨rfl, rfl, rfl⟩

/-- C8 (amended): `insert_data` succeeds exactly when `parent_path` is
nonempty (on an empty `parent_path` the source panics with an
out-of-bounds slice, modelled as `none`).  On success it skips the first
element of `parent_path` and resolves each remaining name by the same
*subtree-wide* search as `species_in_taxon` (direct children of the
current taxon first, then recursively), creating and entering a fresh
taxon with the exact given name when the search fails; it appends
exactly one entry — the reached taxon's path — to the leaf-taxa index
and appends the new species `(common_name, name)` as that taxon's last
child. -/
theorem c8_insert_data_amended (t : BirdTree) (d : BirdData)
    (hroot : t.root.is_bird = false) :
    ((t.insert_data d).isSome ↔ d.parent_nodes ≠ [])
    ∧ ∀ t2, t.insert_data d = some t2 →
        ∃ (p : List Nat) (nm : String) (cs : List Node),
          t2.direct_parents = t.direct_parents ++ [p]
          ∧ t2.root.get p
              = some (Node.Group nm (cs ++ [Node.Bird d.common_name d.name])) := by
  cases hd : d.parent_nodes with
  | nil =>
      constructor
      · simp [BirdTree.insert_data, hd]
      · intro t2 h
        simp [BirdTree.insert_data, hd] at h
  | cons x names =>
      constructor
      · simp [BirdTree.insert_data, hd]
      · intro t2 h
        simp only [BirdTree.insert_data, hd, Option.some_inj] at h
        subst h
        obtain ⟨nm, cs, hg⟩ := insert_groups_get names t.root hroot
        refine ⟨(insert_groups t.root names).2, nm, cs, rfl, ?_⟩
        rw [Node.get_modify_at_self _ _ _ _ hg]
        rfl

/-- C8 witness: ingesting a record into the fixture, evaluated at the
concrete result tree. -/
theorem c8_witness :
    ∃ (p : List Nat) (nm : String) (cs : List Node),
      t_chordata_y.direct_parents = build_tree.direct_parents ++ [p]
      ∧ t_chordata_y.root.get p = some (Node.Group nm (cs ++ [Node.Bird "Y" "y"])) :=
  (c8_insert_data_amended build_tree ⟨["animalia", "chordata"], "y", "Y"⟩ rfl).2
    t_chordata_y rfl

/-- C9 counterexample: a tree built by `BirdTree::new` whose index entry
(the root) has a `Group` child named `b`: `search_by_common_name("b")`
returns that `Group` node, not a species. -/
theorem c9_group_returned :
    BirdTree.new (Node.Group "a" [Node.Group "b" []]) [[]] = some t_group_child
    ∧ t_group_child.search_by_name "b" = some (Node.Group "b" [])
    ∧ (Node.Group "b" []).is_bird = false :=
  ⟨rfl, rfl, rfl⟩

/-- C9 (amended): the searches return children of indexed taxa, so the
result is a species whenever every child of every indexed taxon is a
species (which the searches themselves do not enforce). -/
theorem c9_search_amended (t : BirdTree) (q : String) (n : Node)
    (hall : ∀ c ∈ indexed_children t, c.is_bird = true) :
    (t.search_by_name q = some n → n.is_bird = true)
    ∧ (t.search_by_scientific_name q = some n → n.is_bird = true) := by
  constructor
  · intro h
    rw [search_by_name_eq_find] at h
    exact hall n (List.mem_of_find?_eq_some h)
  · intro h
    rw [search_by_scientific_name_eq_find] at h
    exact hall n (List.mem_of_find?_eq_some h)

/-- C9 witness: on the fixture every indexed child is a species, and the
searched Kea is one. -/
theorem c9_witness : (Node.Bird "Kea" "notabilis").is_bird = true :=
  (c9_search_amended build_tree "Kea" (Node.Bird "Kea" "notabilis") (by decide)).1 rfl

/-- C10: starting from any successful `BirdTree::new` and applying any
sequence of `insert_data`, `add_group` and `add_bird` calls, every entry
of the leaf-taxa index resolves to a `Group` node, so every
`children().unwrap()` over the index (in both searches and in
`save_tree`) succeeds — the `NodeTypeError` branch is unreachable. -/
theorem c10_children_unwrap_safe (root : Node) (dps : List (List Nat)) (t : BirdTree)
    (ops : List TreeOp) (h : BirdTree.new root dps = some t) :
    ∀ p ∈ (ops.foldl step_op t).direct_parents,
      ∃ cs, ((ops.foldl step_op t).root.get p).bind Node.children = some cs := by
  have hi := tree_inv_foldl ops t (tree_inv_new root dps t h)
  intro p hp
  obtain ⟨nm, cs, hg⟩ := hi.2 p hp
  exact ⟨cs, by rw [hg]; rfl⟩

/-- C10 witness: after a sample session on the fixture, the index entry
for Nestor still resolves and `children().unwrap()` on it succeeds. -/
theorem c10_witness :
    ∃ cs, ((ops_sample.foldl step_op build_tree).root.get [0, 0, 0, 0, 0]).bind
      Node.children = some cs :=
  c10_children_unwrap_safe fixture_root build_tree.direct_parents build_tree ops_sample rfl
    [0, 0, 0, 0, 0] (by decide)
